import Mathlib

/-!
Verification of the statistics engine of `computeStatistics.py`.

The engine operates on a dataset of real numbers; we embed the values as
rationals (`ℚ`), which models exact real arithmetic on the finite inputs the
boundary contract promises (floating-point rounding is out of scope).
Operations that can raise in Python (`ZeroDivisionError` on `n = 0`,
`max()` of an empty sequence, list indexing out of range) are embedded as
`Option`-valued functions returning `none` exactly where Python would raise.
-/

namespace ComputeStatistics

/-- Result of `calcular_moda`.  The Python function returns either a number
(the single mode), the string `"No hay moda (todos los valores aparecen una
vez)"`, or the string `"Múltiples modas: [...]"` listing the tied values; the
three shapes are embedded as a tagged value carrying the same information. -/
inductive ModeResult where
  | singleMode : ℚ → ModeResult
  | noMode : ModeResult
  | multipleModes : List ℚ → ModeResult
  deriving DecidableEq, Repr

/-- `calcular_media`: `sum(self.datos) / self.n_elementos`.
Python raises `ZeroDivisionError` when the dataset is empty; we return
`none` there. -/
def calcular_media (datos : List ℚ) : Option ℚ :=
  if datos.length = 0 then none else some (datos.sum / datos.length)

/-- `calcular_mediana`: sort a copy ascending (`sorted`, embedded as
`List.insertionSort`, a stable sort like Python's), set `mitad = n // 2`,
then branch on parity, averaging `ordenados[mitad - 1]` and
`ordenados[mitad]` in the even case.  Out-of-range indexing (only possible
for the empty dataset) yields `none` where Python raises `IndexError`. -/
def calcular_mediana (datos : List ℚ) : Option ℚ :=
  let ordenados := datos.insertionSort (· ≤ ·)
  let mitad := datos.length / 2
  if datos.length % 2 = 0 then
    match ordenados[mitad - 1]?, ordenados[mitad]? with
    | some a, some b => some ((a + b) / 2)
    | _, _ => none
  else ordenados[mitad]?

/-- One step of building the frequency dictionary:
`frecuencias[numero] = frecuencias.get(numero, 0) + 1`.  A Python `dict`
preserves insertion order, so it is embedded as an association list: an
existing key keeps its position and its count is incremented; a new key is
appended at the end. -/
def actualizar (tabla : List (ℚ × ℕ)) (x : ℚ) : List (ℚ × ℕ) :=
  match tabla with
  | [] => [(x, 1)]
  | (y, c) :: resto => if x = y then (y, c + 1) :: resto else (y, c) :: actualizar resto x

/-- The frequency dictionary built by the `for numero in self.datos` loop of
`calcular_moda`: keys in first-occurrence order, each mapped to its
occurrence count. -/
def frecuencias (datos : List ℚ) : List (ℚ × ℕ) :=
  datos.foldl actualizar []

/-- Python's builtin `max(iterable)`: raises `ValueError` on an empty
iterable, otherwise folds binary `max` over the elements. -/
def pyMax (ls : List ℕ) : Option ℕ :=
  match ls with
  | [] => none
  | a :: resto => some (resto.foldl max a)

/-- `calcular_moda`: build the frequency table, take the maximum frequency,
collect the keys attaining it (in table = first-occurrence order), then
classify: all `n` keys tied → no mode; more than one key tied → multiple
modes; otherwise the single mode `modas[0]`. -/
def calcular_moda (datos : List ℚ) : Option ModeResult :=
  let tabla := frecuencias datos
  match pyMax (tabla.map Prod.snd) with
  | none => none
  | some maxFrecuencia =>
    let modas := (tabla.filter (fun p => p.2 = maxFrecuencia)).map Prod.fst
    if modas.length = datos.length then some ModeResult.noMode
    else if modas.length > 1 then some (ModeResult.multipleModes modas)
    else
      match modas with
      | m :: _ => some (ModeResult.singleMode m)
      | [] => none

/-- `calcular_varianza`: `sum((x - media) ** 2 for x in self.datos)` divided
by `self.n_elementos`; `none` models the `ZeroDivisionError` on an empty
dataset. -/
def calcular_varianza (datos : List ℚ) (media : ℚ) : Option ℚ :=
  if datos.length = 0 then none
  else some ((datos.map (fun x => (x - media) ^ 2)).sum / datos.length)

/-- `calcular_desviacion_estandar`: `varianza ** 0.5`, i.e. the real power
`varianza ^ (1/2)`. -/
noncomputable def calcular_desviacion_estandar (varianza : ℝ) : ℝ :=
  varianza ^ ((1 : ℝ) / 2)

/-! ### Specification-side notions for the mode

`primeras` is the list of distinct values of a dataset in first-occurrence
order, `maxFrec` the maximum occurrence count, and `empatados` the distinct
values tied at that maximum, in first-occurrence order.  These are stated
from the spec's vocabulary and then related to the embedded code. -/

/-- Distinct elements of a list in first-occurrence order, skipping the
values already seen (`vistos`). -/
def primeras (vistos : List ℚ) : List ℚ → List ℚ
  | [] => []
  | x :: xs => if x ∈ vistos then primeras vistos xs else x :: primeras (x :: vistos) xs

/-- Distinct values of the dataset in first-occurrence order. -/
def distintos (l : List ℚ) : List ℚ := primeras [] l

/-- The maximum occurrence count over the dataset. -/
def maxFrec (l : List ℚ) : ℕ := (l.map (fun x => l.count x)).foldr max 0

/-- Distinct values tied at the maximum occurrence count, in
first-occurrence order. -/
def empatados (l : List ℚ) : List ℚ :=
  (distintos l).filter (fun x => l.count x = maxFrec l)

/-! ### The file reader `leer_archivo`

Python's `float(str)` can produce non-finite values, so the values the
reader collects are embedded as a sum of exact rationals and the three
non-finite floats. -/

/-- A value produced by Python's `float()`: a finite number (embedded as an
exact rational) or one of the non-finite floats. -/
inductive PyVal where
  | finito : ℚ → PyVal
  | inf : PyVal
  | negInf : PyVal
  | nan : PyVal
  deriving DecidableEq, Repr

/-- Negation of a Python float value, used for a leading minus sign. -/
def PyVal.neg : PyVal → PyVal
  | finito q => finito (-q)
  | inf => negInf
  | negInf => inf
  | nan => nan

/-- Whether a Python float value is finite. -/
def PyVal.esFinito : PyVal → Bool
  | finito _ => true
  | _ => false

/-- Value of a string of decimal digits. -/
def digitosANat (cs : List Char) : ℕ :=
  cs.foldl (fun acc c => 10 * acc + (c.toNat - 48)) 0

/-- Exponent part of a float literal: an optional sign and digits. -/
def parseExponente (cs : List Char) : Option ℤ :=
  match cs with
  | '+' :: ds => if ds ≠ [] ∧ ds.all Char.isDigit then some (digitosANat ds) else none
  | '-' :: ds => if ds ≠ [] ∧ ds.all Char.isDigit then some (-(digitosANat ds : ℤ)) else none
  | ds => if ds ≠ [] ∧ ds.all Char.isDigit then some (digitosANat ds) else none

/-- Decimal float literal `digits`, `digits.digits`, `.digits`, `digits.`,
optionally followed by an exponent `e[sign]digits`; the input is already
lowercased. -/
def parseDecimal (cs : List Char) : Option ℚ :=
  let (entero, resto) := cs.span Char.isDigit
  match resto with
  | [] => if entero = [] then none else some (digitosANat entero : ℚ)
  | '.' :: resto2 =>
    let (frac, resto3) := resto2.span Char.isDigit
    if entero = [] ∧ frac = [] then none
    else
      let mantisa : ℚ := (digitosANat entero : ℚ) + (digitosANat frac : ℚ) / 10 ^ frac.length
      match resto3 with
      | [] => some mantisa
      | 'e' :: exp2 => (parseExponente exp2).map fun e => mantisa * 10 ^ e
      | _ => none
  | 'e' :: exp2 =>
    if entero = [] then none
    else (parseExponente exp2).map fun e => (digitosANat entero : ℚ) * 10 ^ e
  | _ => none

/-- Core of `float()` after stripping the sign: case-insensitively `inf`,
`infinity` or `nan`, otherwise a decimal literal. -/
def pyFloatNucleo (cs : List Char) : Option PyVal :=
  if cs = ['i', 'n', 'f'] ∨ cs = ['i', 'n', 'f', 'i', 'n', 'i', 't', 'y'] then some PyVal.inf
  else if cs = ['n', 'a', 'n'] then some PyVal.nan
  else (parseDecimal cs).map PyVal.finito

/-- `str.strip()`: remove leading and trailing whitespace. -/
def recortar (cs : List Char) : List Char :=
  ((cs.dropWhile Char.isWhitespace).reverse.dropWhile Char.isWhitespace).reverse

/-- Model of Python's builtin `float(str)` as called on each stripped line:
surrounding whitespace is removed, then an optional sign precedes either a
non-finite keyword or a decimal literal.  (Python additionally accepts
underscores inside numeric literals; no claim depends on that form.) -/
def pyFloat (s : String) : Option PyVal :=
  match (recortar s.toList).map Char.toLower with
  | '+' :: resto => pyFloatNucleo resto
  | '-' :: resto => (pyFloatNucleo resto).map PyVal.neg
  | resto => pyFloatNucleo resto

/-- Outcome of opening the input file: missing file, any other read error,
or the list of its lines. -/
inductive Archivo where
  | noEncontrado : Archivo
  | errorLectura : Archivo
  | contenido : List String → Archivo

/-- `leer_archivo`: collect `float(linea.strip())` over the lines of the
file, skipping lines that fail to parse (the code prints a message for
each); raise `ArchivoError` if the file cannot be read, and raise
`ArchivoError` if no line parses as a number. -/
def leer_archivo (archivo : Archivo) : Except String (List PyVal) :=
  match archivo with
  | Archivo.noEncontrado => Except.error "No se encontro el archivo"
  | Archivo.errorLectura => Except.error "Error al leer el archivo"
  | Archivo.contenido lineas =>
    let numeros := lineas.filterMap (fun linea => pyFloat linea)
    if numeros = [] then Except.error "No se encontraron numeros validos en el archivo"
    else Except.ok numeros

theorem mem_primeras {a : ℚ} : ∀ {l v : List ℚ}, a ∈ primeras v l ↔ a ∈ l ∧ a ∉ v
  | [], v => by simp [primeras]
  | x :: xs, v => by
    simp only [primeras]
    by_cases hx : x ∈ v
    · rw [if_pos hx, mem_primeras]
      constructor
      · exact fun ⟨h1, h2⟩ => ⟨List.mem_cons_of_mem _ h1, h2⟩
      · rintro ⟨h1, h2⟩
        rcases List.mem_cons.mp h1 with rfl | h1
        · exact absurd hx h2
        · exact ⟨h1, h2⟩
    · rw [if_neg hx]
      simp only [List.mem_cons, mem_primeras]
      constructor
      · rintro (rfl | ⟨h1, h2⟩)
        · exact ⟨Or.inl rfl, hx⟩
        · exact ⟨Or.inr h1, fun hv => h2 (Or.inr hv)⟩
      · rintro ⟨rfl | h1, h2⟩
        · exact Or.inl rfl
        · by_cases hax : a = x
          · exact Or.inl hax
          · exact Or.inr ⟨h1, by simp [hax, h2]⟩

theorem nodup_primeras : ∀ (l v : List ℚ), (primeras v l).Nodup
  | [], _ => List.nodup_nil
  | x :: xs, v => by
    simp only [primeras]
    by_cases hx : x ∈ v
    · rw [if_pos hx]; exact nodup_primeras xs v
    · rw [if_neg hx]
      refine List.nodup_cons.mpr ⟨fun hmem => ?_, nodup_primeras xs (x :: v)⟩
      exact (mem_primeras.mp hmem).2 (List.mem_cons_self x v)

theorem primeras_congr : ∀ {l v w : List ℚ}, (∀ a, a ∈ v ↔ a ∈ w) →
    primeras v l = primeras w l
  | [], _, _, _ => rfl
  | x :: xs, v, w, h => by
    simp only [primeras]
    by_cases hx : x ∈ v
    · rw [if_pos hx, if_pos ((h x).mp hx), primeras_congr h]
    · rw [if_neg hx, if_neg (fun hw => hx ((h x).mpr hw))]
      refine congrArg _ (primeras_congr fun a => ?_)
      simp only [List.mem_cons, h a]

theorem sublist_primeras : ∀ (l v : List ℚ), List.Sublist (primeras v l) l
  | [], _ => List.Sublist.refl []
  | x :: xs, v => by
    simp only [primeras]
    by_cases hx : x ∈ v
    · rw [if_pos hx]; exact (sublist_primeras xs v).cons x
    · rw [if_neg hx]; exact (sublist_primeras xs (x :: v)).cons₂ x

theorem pairwise_indexOf_primeras :
    ∀ (l v : List ℚ), (primeras v l).Pairwise (fun a b => l.indexOf a < l.indexOf b)
  | [], _ => List.Pairwise.nil
  | x :: xs, v => by
    simp only [primeras]
    by_cases hx : x ∈ v
    · rw [if_pos hx]
      refine (pairwise_indexOf_primeras xs v).imp_of_mem ?_
      intro a b ha hb hlt
      have hav : a ∉ v := (mem_primeras.mp ha).2
      have hbv : b ∉ v := (mem_primeras.mp hb).2
      have hax : x ≠ a := fun h => hav (h ▸ hx)
      have hbx : x ≠ b := fun h => hbv (h ▸ hx)
      rw [List.indexOf_cons_ne _ hax, List.indexOf_cons_ne _ hbx]
      exact Nat.succ_lt_succ hlt
    · rw [if_neg hx]
      refine List.pairwise_cons.mpr ⟨fun b hb => ?_, ?_⟩
      · have hbx : x ≠ b := by
          intro h
          exact (mem_primeras.mp hb).2 (h ▸ List.mem_cons_self x v)
        rw [List.indexOf_cons_self, List.indexOf_cons_ne _ hbx]
        exact Nat.succ_pos _
      · refine (pairwise_indexOf_primeras xs (x :: v)).imp_of_mem ?_
        intro a b ha hb hlt
        have hax : x ≠ a := fun h =>
          (mem_primeras.mp ha).2 (h ▸ List.mem_cons_self x v)
        have hbx : x ≠ b := fun h =>
          (mem_primeras.mp hb).2 (h ▸ List.mem_cons_self x v)
        rw [List.indexOf_cons_ne _ hax, List.indexOf_cons_ne _ hbx]
        exact Nat.succ_lt_succ hlt

theorem actualizar_mem : ∀ {t : List (ℚ × ℕ)} {x : ℚ}, x ∈ t.map Prod.fst →
    (t.map Prod.fst).Nodup →
    actualizar t x = t.map (fun p => (p.1, p.2 + if p.1 = x then 1 else 0))
  | [], x, hx, _ => by simp at hx
  | (y, c) :: resto, x, hx, ht => by
    simp only [List.map_cons, List.nodup_cons] at ht
    by_cases hxy : x = y
    · subst hxy
      have hresto :
          List.map (fun p => (p.1, p.2 + if p.1 = x then 1 else 0)) resto = resto := by
        refine (List.map_congr_left fun p hp => ?_).trans (List.map_id resto)
        have hne : p.1 ≠ x := fun h => ht.1 (h ▸ List.mem_map_of_mem Prod.fst hp)
        simp [hne]
      simp only [actualizar, if_pos rfl, List.map_cons, hresto]
      simp
    · have hx' : x = y ∨ x ∈ List.map Prod.fst resto := by
        rw [List.map_cons, List.mem_cons] at hx; exact hx
      have hxr : x ∈ List.map Prod.fst resto := hx'.resolve_left hxy
      have hyx : y ≠ x := fun h => hxy h.symm
      simp only [actualizar, if_neg hxy, List.map_cons]
      rw [actualizar_mem hxr ht.2]
      simp [hyx]

theorem actualizar_not_mem : ∀ {t : List (ℚ × ℕ)} {x : ℚ}, x ∉ t.map Prod.fst →
    actualizar t x = t ++ [(x, 1)]
  | [], x, _ => rfl
  | (y, c) :: resto, x, hx => by
    simp only [List.map_cons, List.mem_cons] at hx
    push_neg at hx
    simp only [actualizar, if_neg hx.1, List.cons_append]
    rw [actualizar_not_mem (by simpa using hx.2)]

theorem foldl_actualizar : ∀ (l : List ℚ) (t : List (ℚ × ℕ)),
    (t.map Prod.fst).Nodup →
    List.foldl actualizar t l = t.map (fun p => (p.1, p.2 + l.count p.1)) ++
      (primeras (t.map Prod.fst) l).map (fun x => (x, l.count x))
  | [], t, _ => by simp [primeras, Prod.mk.eta]
  | x :: xs, t, ht => by
    rw [List.foldl_cons]
    by_cases hx : x ∈ t.map Prod.fst
    · rw [actualizar_mem hx ht]
      have hkeys : (t.map (fun p => (p.1, p.2 + if p.1 = x then 1 else 0))).map Prod.fst
          = t.map Prod.fst := by
        rw [List.map_map]; rfl
      rw [foldl_actualizar xs _ (hkeys ▸ ht), hkeys, List.map_map]
      have hprim : primeras (t.map Prod.fst) (x :: xs) = primeras (t.map Prod.fst) xs := by
        simp [primeras, hx]
      rw [hprim]
      refine congrArg₂ _ ?_ ?_
      · refine List.map_congr_left fun p _ => ?_
        have hc : (x :: xs).count p.1 = xs.count p.1 + if p.1 = x then 1 else 0 := by
          by_cases hpx : p.1 = x
          · subst hpx; simp [List.count_cons]
          · have hxp : x ≠ p.1 := fun h => hpx h.symm
            simp [List.count_cons, hxp, hpx]
        show (p.1, (p.2 + if p.1 = x then 1 else 0) + xs.count p.1)
            = (p.1, p.2 + (x :: xs).count p.1)
        rw [hc]
        exact congrArg _ (by omega)
      · refine List.map_congr_left fun k hk => ?_
        have hkx : k ≠ x := fun h => (mem_primeras.mp hk).2 (h ▸ hx)
        rw [List.count_cons_of_ne hkx]
    · rw [actualizar_not_mem hx]
      have hkeys : ((t ++ [(x, 1)]).map Prod.fst) = t.map Prod.fst ++ [x] := by simp
      have hnodup : ((t ++ [(x, 1)]).map Prod.fst).Nodup := by
        rw [hkeys, List.nodup_append]
        exact ⟨ht, List.nodup_singleton x, by simpa using hx⟩
      rw [foldl_actualizar xs _ hnodup, hkeys]
      have hprim : primeras (t.map Prod.fst) (x :: xs)
          = x :: primeras (x :: t.map Prod.fst) xs := by
        simp [primeras, hx]
      have hcongr : primeras (t.map Prod.fst ++ [x]) xs
          = primeras (x :: t.map Prod.fst) xs := by
        refine primeras_congr fun a => ?_
        simp [or_comm]
      rw [hprim, hcongr, List.map_append, List.append_assoc]
      refine congrArg₂ _ ?_ ?_
      · refine List.map_congr_left fun p hp => ?_
        have hpx : p.1 ≠ x := fun h => hx (h ▸ List.mem_map_of_mem Prod.fst hp)
        rw [List.count_cons_of_ne hpx]
      · simp only [List.map_cons, List.map_nil, List.singleton_append, List.count_cons_self]
        refine congrArg₂ _ (by refine congrArg _ ?_; omega) ?_
        refine List.map_congr_left fun k hk => ?_
        have hkx : k ≠ x := fun h =>
          (mem_primeras.mp hk).2 (h ▸ List.mem_cons_self x _)
        rw [List.count_cons_of_ne hkx]

/-- The frequency dictionary is exactly the first-occurrence-ordered list of
distinct values, each paired with its total occurrence count. -/
theorem frecuencias_eq (l : List ℚ) :
    frecuencias l = (distintos l).map (fun x => (x, l.count x)) := by
  have h := foldl_actualizar l [] (by simp)
  simpa [frecuencias, distintos] using h

theorem mem_distintos {l : List ℚ} {a : ℚ} : a ∈ distintos l ↔ a ∈ l := by
  rw [distintos, mem_primeras]
  simp

theorem distintos_ne_nil {l : List ℚ} (h : l ≠ []) : distintos l ≠ [] := by
  obtain ⟨x, hx⟩ := List.exists_mem_of_ne_nil l h
  exact List.ne_nil_of_mem (mem_distintos.mpr hx)

theorem le_foldr_max : ∀ {ns : List ℕ} {x : ℕ}, x ∈ ns → x ≤ ns.foldr max 0
  | a :: t, x, hx => by
    rw [List.foldr_cons]
    rcases List.mem_cons.mp hx with rfl | hx
    · exact le_max_left _ _
    · exact le_trans (le_foldr_max hx) (le_max_right _ _)

theorem foldr_max_mem : ∀ (ns : List ℕ), ns ≠ [] → ns.foldr max 0 ∈ ns
  | [a], _ => by simp
  | a :: b :: t, _ => by
    rw [List.foldr_cons]
    rcases max_choice a ((b :: t).foldr max 0) with h | h
    · rw [h]; exact List.mem_cons_self _ _
    · rw [h]; exact List.mem_cons_of_mem _ (foldr_max_mem (b :: t) (by simp))

theorem count_le_maxFrec {l : List ℚ} {x : ℚ} (hx : x ∈ l) : l.count x ≤ maxFrec l :=
  le_foldr_max (List.mem_map_of_mem (fun y => l.count y) hx)

theorem maxFrec_attained {l : List ℚ} (h : l ≠ []) : ∃ x ∈ l, l.count x = maxFrec l := by
  have hne : l.map (fun x => l.count x) ≠ [] := by
    simp only [ne_eq, List.map_eq_nil_iff]; exact h
  obtain ⟨x, hx, hcx⟩ := List.mem_map.mp (foldr_max_mem _ hne)
  exact ⟨x, hx, hcx⟩

theorem foldl_max_spec : ∀ (ls : List ℕ) (a : ℕ),
    ls.foldl max a ∈ a :: ls ∧ ∀ x ∈ a :: ls, x ≤ ls.foldl max a
  | [], a => by simp
  | b :: t, a => by
    rw [List.foldl_cons]
    obtain ⟨hmem, hub⟩ := foldl_max_spec t (max a b)
    constructor
    · rcases List.mem_cons.mp hmem with hm | hm
      · rcases max_choice a b with h | h
        · rw [hm, h]; exact List.mem_cons_self _ _
        · rw [hm, h]; exact List.mem_cons_of_mem _ (List.mem_cons_self _ _)
      · exact List.mem_cons_of_mem _ (List.mem_cons_of_mem _ hm)
    · intro x hx
      rcases List.mem_cons.mp hx with rfl | hx
      · exact le_trans (le_max_left _ b) (hub _ (List.mem_cons_self _ _))
      · rcases List.mem_cons.mp hx with rfl | hx
        · exact le_trans (le_max_right a _) (hub _ (List.mem_cons_self _ _))
        · exact hub _ (List.mem_cons_of_mem _ hx)

theorem pyMax_spec {ls : List ℕ} (h : ls ≠ []) :
    ∃ m, pyMax ls = some m ∧ m ∈ ls ∧ ∀ x ∈ ls, x ≤ m := by
  match ls, h with
  | a :: resto, _ =>
    obtain ⟨hmem, hub⟩ := foldl_max_spec resto a
    exact ⟨resto.foldl max a, rfl, hmem, hub⟩

/-- `max(frecuencias.values())` computes exactly the spec-level maximum
occurrence count. -/
theorem pyMax_frecuencias {l : List ℚ} (h : l ≠ []) :
    pyMax ((frecuencias l).map Prod.snd) = some (maxFrec l) := by
  have hne : (frecuencias l).map Prod.snd ≠ [] := by
    rw [frecuencias_eq, List.map_map]
    simp only [ne_eq, List.map_eq_nil_iff]
    exact distintos_ne_nil h
  obtain ⟨m, hm, hmem, hub⟩ := pyMax_spec hne
  rw [hm]
  refine congrArg _ (le_antisymm ?_ ?_)
  · rw [frecuencias_eq, List.map_map] at hmem
    obtain ⟨y, hy, hym⟩ := List.mem_map.mp hmem
    exact hym ▸ count_le_maxFrec (mem_distintos.mp hy)
  · obtain ⟨z, hz, hcz⟩ := maxFrec_attained h
    have hmem2 : l.count z ∈ (frecuencias l).map Prod.snd := by
      rw [frecuencias_eq, List.map_map]
      exact List.mem_map_of_mem _ (mem_distintos.mpr hz)
    exact hcz ▸ hub _ hmem2

/-- The `modas` list collected by the code equals the spec-level list of
tied values in first-occurrence order. -/
theorem modas_eq (l : List ℚ) :
    ((frecuencias l).filter (fun p => p.2 = maxFrec l)).map Prod.fst = empatados l := by
  rw [frecuencias_eq, List.filter_map, List.map_map]
  have h1 : (Prod.fst ∘ fun x : ℚ => (x, List.count x l)) = id := rfl
  have h2 : ((fun p : ℚ × ℕ => decide (p.2 = maxFrec l)) ∘ fun x : ℚ => (x, List.count x l))
      = fun x : ℚ => decide (List.count x l = maxFrec l) := rfl
  rw [h1, h2, List.map_id]
  rfl

theorem mem_empatados {l : List ℚ} {a : ℚ} :
    a ∈ empatados l ↔ a ∈ l ∧ l.count a = maxFrec l := by
  rw [empatados, List.mem_filter, mem_distintos]
  simp

theorem empatados_ne_nil {l : List ℚ} (h : l ≠ []) : empatados l ≠ [] := by
  obtain ⟨z, hz, hcz⟩ := maxFrec_attained h
  exact List.ne_nil_of_mem (mem_empatados.mpr ⟨hz, hcz⟩)

theorem nodup_empatados (l : List ℚ) : (empatados l).Nodup :=
  (nodup_primeras l []).filter _

/-- Master description of `calcular_moda` on a non-empty dataset: the code's
branching, with the frequency table replaced by its specification. -/
theorem calcular_moda_eq {l : List ℚ} (h : l ≠ []) :
    calcular_moda l =
      if (empatados l).length = l.length then some ModeResult.noMode
      else if 1 < (empatados l).length then some (ModeResult.multipleModes (empatados l))
      else match empatados l with
        | m :: _ => some (ModeResult.singleMode m)
        | [] => none := by
  have h1 := pyMax_frecuencias h
  unfold calcular_moda
  simp only [h1, modas_eq]

/-- Master description of `calcular_mediana` on a non-empty dataset: the
indexing never goes out of range, so both branches produce a value. -/
theorem calcular_mediana_eq {l : List ℚ} (h : l ≠ []) :
    calcular_mediana l =
      if l.length % 2 = 0 then
        some (((l.insertionSort (· ≤ ·)).getD (l.length / 2 - 1) 0
          + (l.insertionSort (· ≤ ·)).getD (l.length / 2) 0) / 2)
      else some ((l.insertionSort (· ≤ ·)).getD (l.length / 2) 0) := by
  have hlen : (l.insertionSort (· ≤ ·)).length = l.length :=
    (List.perm_insertionSort _ l).length_eq
  have hpos : 0 < l.length := List.length_pos.mpr h
  have hi2 : l.length / 2 < (l.insertionSort (· ≤ ·)).length := by
    rw [hlen]; exact Nat.div_lt_self hpos (by norm_num)
  simp only [calcular_mediana]
  by_cases hpar : l.length % 2 = 0
  · have hi1 : l.length / 2 - 1 < (l.insertionSort (· ≤ ·)).length := by
      rw [hlen]; omega
    rw [if_pos hpar, if_pos hpar,
      List.getElem?_eq_getElem hi1, List.getElem?_eq_getElem hi2]
    rw [List.getD_eq_getElem?_getD, List.getD_eq_getElem?_getD,
      List.getElem?_eq_getElem hi1, List.getElem?_eq_getElem hi2]
    rfl
  · rw [if_neg hpar, if_neg hpar, List.getElem?_eq_getElem hi2,
      List.getD_eq_getElem?_getD, List.getElem?_eq_getElem hi2]
    rfl

theorem calcular_media_eq {l : List ℚ} (h : l ≠ []) :
    calcular_media l = some (l.sum / l.length) := by
  rw [calcular_media, if_neg (by simpa using h)]

theorem calcular_varianza_eq {l : List ℚ} (media : ℚ) (h : l ≠ []) :
    calcular_varianza l media
      = some ((l.map (fun x => (x - media) ^ 2)).sum / (l.length : ℚ)) := by
  rw [calcular_varianza, if_neg (by simpa using h)]

theorem sum_sq_nonneg (l : List ℚ) (m : ℚ) :
    0 ≤ (l.map (fun x => (x - m) ^ 2)).sum :=
  List.sum_nonneg fun x hx => by
    obtain ⟨y, _, rfl⟩ := List.mem_map.mp hx
    exact sq_nonneg _

theorem sum_sq_eq_zero_iff (l : List ℚ) (m : ℚ) :
    (l.map (fun x => (x - m) ^ 2)).sum = 0 ↔ ∀ x ∈ l, x = m := by
  induction l with
  | nil => simp
  | cons a t ih =>
    simp only [List.map_cons, List.sum_cons, List.forall_mem_cons]
    rw [add_eq_zero_iff_of_nonneg (sq_nonneg _) (sum_sq_nonneg t m),
      sq_eq_zero_iff, sub_eq_zero, ih]

theorem mem_eq_media_of_all_eq {l : List ℚ} {x : ℚ} (hx : x ∈ l)
    (hall : ∀ y ∈ l, ∀ z ∈ l, y = z) : x = l.sum / l.length := by
  have hsum : l.sum = l.length • x :=
    List.sum_eq_card_nsmul l x fun z hz => hall z hz x hx
  have hlen : (l.length : ℚ) ≠ 0 :=
    Nat.cast_ne_zero.mpr (by simpa [List.length_eq_zero] using List.ne_nil_of_mem hx)
  rw [hsum, nsmul_eq_mul, mul_div_cancel_left₀ _ hlen]

/-! ### Claim theorems for the statistics engine -/

/-- **C1**: on every non-empty dataset, `calcular_moda` classifies by exactly
this policy: if the number of distinct values tied at the maximum frequency
equals `n`, the result is no-mode (in particular every dataset of size 1 is
classified no-mode); otherwise if more than one value is tied the result
lists the multiple modes; otherwise it is the single mode, which is the
unique strictly most frequent value. -/
theorem moda_clasificacion (l : List ℚ) (h : l ≠ []) :
    (l.length = 1 → calcular_moda l = some ModeResult.noMode) ∧
    ((empatados l).length = l.length → calcular_moda l = some ModeResult.noMode) ∧
    ((empatados l).length ≠ l.length → 1 < (empatados l).length →
      calcular_moda l = some (ModeResult.multipleModes (empatados l))) ∧
    ((empatados l).length ≠ l.length → ¬ 1 < (empatados l).length →
      ∃ x, calcular_moda l = some (ModeResult.singleMode x) ∧ x ∈ l ∧
        l.count x = maxFrec l ∧ ∀ y ∈ l, y ≠ x → l.count y < l.count x) := by
  refine ⟨?_, ?_, ?_, ?_⟩
  · intro h1
    obtain ⟨a, rfl⟩ := List.length_eq_one.mp h1
    have hd : distintos [a] = [a] := by simp [distintos, primeras]
    have hmax : maxFrec [a] = 1 := by simp [maxFrec]
    have he : empatados [a] = [a] := by
      rw [empatados, hd, hmax]; simp
    rw [calcular_moda_eq h, if_pos (by rw [he])]
  · intro he
    rw [calcular_moda_eq h, if_pos he]
  · intro hne hgt
    rw [calcular_moda_eq h, if_neg hne, if_pos hgt]
  · intro hne hle
    obtain ⟨x, rest, hx⟩ := List.exists_cons_of_ne_nil (empatados_ne_nil h)
    have hrest : rest = [] := by
      have := hx ▸ hle
      simpa using List.length_eq_zero.mp (by simpa using this)
    subst hrest
    have hxmem : x ∈ empatados l := hx ▸ List.mem_cons_self x []
    obtain ⟨hxl, hxc⟩ := mem_empatados.mp hxmem
    refine ⟨x, ?_, hxl, hxc, ?_⟩
    · rw [calcular_moda_eq h, if_neg hne, if_neg hle, hx]
    · intro y hy hyx
      refine lt_of_le_of_ne (hxc ▸ count_le_maxFrec hy) fun hc => ?_
      have : y ∈ empatados l := mem_empatados.mpr ⟨hy, hxc ▸ hc⟩
      rw [hx] at this
      exact hyx (by simpa using this)

/-- **C2**: when more than one (but not every) distinct value is tied at the
maximum occurrence count, `calcular_moda` returns exactly the tied values,
without duplicates, ordered by the position of their first occurrence in the
dataset. -/
theorem moda_multiples_orden (l : List ℚ) (h : l ≠ [])
    (h1 : 1 < (empatados l).length) (h2 : (empatados l).length ≠ l.length) :
    ∃ ms, calcular_moda l = some (ModeResult.multipleModes ms) ∧
      (∀ a, a ∈ ms ↔ a ∈ l ∧ l.count a = maxFrec l) ∧ ms.Nodup ∧
      ms.Pairwise (fun a b => l.indexOf a < l.indexOf b) := by
  refine ⟨empatados l, ?_, fun a => mem_empatados, nodup_empatados l, ?_⟩
  · rw [calcular_moda_eq h, if_neg h2, if_pos h1]
  · exact (pairwise_indexOf_primeras l []).sublist (List.filter_sublist _)

/-- **C3**: on every non-empty dataset, `calcular_mediana` returns, for any
ascending sorted rearrangement `s` of the dataset, the element `s[n / 2]`
when `n` is odd and the average of `s[n / 2 - 1]` and `s[n / 2]` when `n` is
even. -/
theorem mediana_especificacion (l s : List ℚ) (h : l ≠ [])
    (hs : s.Sorted (· ≤ ·)) (hp : l.Perm s) :
    calcular_mediana l =
      if l.length % 2 = 0 then
        some ((s.getD (l.length / 2 - 1) 0 + s.getD (l.length / 2) 0) / 2)
      else some (s.getD (l.length / 2) 0) := by
  have hsort : l.insertionSort (· ≤ ·) = s :=
    List.eq_of_perm_of_sorted ((List.perm_insertionSort _ l).trans hp)
      (List.sorted_insertionSort _ l) hs
  rw [calcular_mediana_eq h, hsort]

/-- **C4**: on every non-empty dataset and for every given mean value,
`calcular_varianza` returns `sum((x - media)^2) / n` with divisor exactly
`n` (population variance). -/
theorem varianza_poblacional (l : List ℚ) (media : ℚ) (h : l ≠ []) :
    ∃ v, calcular_varianza l media = some v ∧
      v = (l.map (fun x => (x - media) ^ 2)).sum / (l.length : ℚ) ∧
      v * (l.length : ℚ) = (l.map (fun x => (x - media) ^ 2)).sum := by
  have hlen : (l.length : ℚ) ≠ 0 :=
    Nat.cast_ne_zero.mpr (by simpa [List.length_eq_zero] using h)
  exact ⟨_, calcular_varianza_eq media h, rfl, div_mul_cancel₀ _ hlen⟩

/-- **C5**: on every non-empty dataset, the variance computed with the
dataset's own mean is non-negative, it vanishes exactly when all values are
equal, and the standard deviation is the non-negative square root of the
variance. -/
theorem varianza_invariantes (l : List ℚ) (m v : ℚ) (h : l ≠ [])
    (hm : calcular_media l = some m) (hv : calcular_varianza l m = some v) :
    0 ≤ v ∧ (v = 0 ↔ ∀ x ∈ l, ∀ y ∈ l, x = y) ∧
      calcular_desviacion_estandar (v : ℝ) = Real.sqrt (v : ℝ) := by
  have hlen : (l.length : ℚ) ≠ 0 :=
    Nat.cast_ne_zero.mpr (by simpa [List.length_eq_zero] using h)
  have hmeq : m = l.sum / (l.length : ℚ) := by
    have := (calcular_media_eq h).symm.trans hm
    exact (Option.some.injEq _ _ ▸ this).symm
  have hveq : v = (l.map (fun x => (x - m) ^ 2)).sum / (l.length : ℚ) := by
    have := (calcular_varianza_eq m h).symm.trans hv
    exact (Option.some.injEq _ _ ▸ this).symm
  have hlenpos : 0 ≤ (l.length : ℚ) := Nat.cast_nonneg _
  refine ⟨hveq ▸ div_nonneg (sum_sq_nonneg l m) hlenpos, ?_, ?_⟩
  · rw [hveq, div_eq_zero_iff]
    simp only [hlen, or_false]
    rw [sum_sq_eq_zero_iff]
    constructor
    · intro hz x hx y hy
      rw [hz x hx, hz y hy]
    · intro hall x hx
      rw [hmeq]
      exact mem_eq_media_of_all_eq hx hall
  · rw [calcular_desviacion_estandar, Real.sqrt_eq_rpow]

/-- **C6**: on every non-empty dataset, `calcular_media` returns exactly
`sum(values) / n`. -/
theorem media_especificacion (l : List ℚ) (h : l ≠ []) :
    ∃ m, calcular_media l = some m ∧ m = l.sum / (l.length : ℚ) ∧
      m * (l.length : ℚ) = l.sum := by
  have hlen : (l.length : ℚ) ≠ 0 :=
    Nat.cast_ne_zero.mpr (by simpa [List.length_eq_zero] using h)
  exact ⟨_, calcular_media_eq h, rfl, div_mul_cancel₀ _ hlen⟩

/-- **C7**: the median is invariant under reordering of a non-empty
dataset. -/
theorem mediana_permutacion (l l' : List ℚ) (h : l ≠ []) (hp : l.Perm l') :
    calcular_mediana l = calcular_mediana l' := by
  have h' : l' ≠ [] := by
    intro hnil
    exact h (List.Perm.eq_nil (hnil ▸ hp))
  have hsort : l.insertionSort (· ≤ ·) = l'.insertionSort (· ≤ ·) :=
    List.eq_of_perm_of_sorted
      ((List.perm_insertionSort _ l).trans (hp.trans (List.perm_insertionSort _ l').symm))
      (List.sorted_insertionSort _ l) (List.sorted_insertionSort _ l')
  rw [calcular_mediana_eq h, calcular_mediana_eq h', hsort, hp.length_eq]

/-- **C8**: on every non-empty dataset, all five statistics are total: mean,
median and mode produce a value, variance produces a value for every given
mean, and the standard deviation is defined for every real input. -/
theorem operaciones_totales (l : List ℚ) (h : l ≠ []) :
    (∃ m, calcular_media l = some m) ∧ (∃ md, calcular_mediana l = some md) ∧
    (∃ mo, calcular_moda l = some mo) ∧
    (∀ media : ℚ, ∃ v, calcular_varianza l media = some v) ∧
    (∀ w : ℝ, ∃ d, calcular_desviacion_estandar w = d) := by
  refine ⟨⟨_, calcular_media_eq h⟩, ?_, ?_,
    fun media => ⟨_, calcular_varianza_eq media h⟩, fun w => ⟨_, rfl⟩⟩
  · rw [calcular_mediana_eq h]
    by_cases hp : l.length % 2 = 0
    · rw [if_pos hp]; exact ⟨_, rfl⟩
    · rw [if_neg hp]; exact ⟨_, rfl⟩
  · obtain ⟨x, rest, hx⟩ := List.exists_cons_of_ne_nil (empatados_ne_nil h)
    rw [calcular_moda_eq h, hx]
    by_cases hA : (x :: rest).length = l.length
    · rw [if_pos hA]; exact ⟨_, rfl⟩
    · rw [if_neg hA]
      by_cases hB : 1 < (x :: rest).length
      · rw [if_pos hB]; exact ⟨_, rfl⟩
      · rw [if_neg hB]; exact ⟨_, rfl⟩

/-! ### Witnesses instantiating the claim theorems at concrete datasets -/

/-- Witness for the mode classification on the dataset `[1, 1, 2]`. -/
theorem moda_clasificacion_testigo :
    ([(1:ℚ), 1, 2].length = 1 → calcular_moda [(1:ℚ), 1, 2] = some ModeResult.noMode) ∧
    ((empatados [(1:ℚ), 1, 2]).length = [(1:ℚ), 1, 2].length →
      calcular_moda [(1:ℚ), 1, 2] = some ModeResult.noMode) ∧
    ((empatados [(1:ℚ), 1, 2]).length ≠ [(1:ℚ), 1, 2].length →
      1 < (empatados [(1:ℚ), 1, 2]).length →
      calcular_moda [(1:ℚ), 1, 2]
        = some (ModeResult.multipleModes (empatados [(1:ℚ), 1, 2]))) ∧
    ((empatados [(1:ℚ), 1, 2]).length ≠ [(1:ℚ), 1, 2].length →
      ¬ 1 < (empatados [(1:ℚ), 1, 2]).length →
      ∃ x, calcular_moda [(1:ℚ), 1, 2] = some (ModeResult.singleMode x) ∧
        x ∈ [(1:ℚ), 1, 2] ∧
        List.count x [(1:ℚ), 1, 2] = maxFrec [(1:ℚ), 1, 2] ∧
        ∀ y ∈ [(1:ℚ), 1, 2], y ≠ x →
          List.count y [(1:ℚ), 1, 2] < List.count x [(1:ℚ), 1, 2]) :=
  moda_clasificacion [(1:ℚ), 1, 2] (by decide)

/-- Witness for the multiple-mode listing on the dataset `[1, 1, 2, 2, 3]`. -/
theorem moda_multiples_orden_testigo :
    ∃ ms, calcular_moda [(1:ℚ), 1, 2, 2, 3] = some (ModeResult.multipleModes ms) ∧
      (∀ a, a ∈ ms ↔ a ∈ [(1:ℚ), 1, 2, 2, 3] ∧
        List.count a [(1:ℚ), 1, 2, 2, 3] = maxFrec [(1:ℚ), 1, 2, 2, 3]) ∧
      ms.Nodup ∧
      ms.Pairwise (fun a b =>
        List.indexOf a [(1:ℚ), 1, 2, 2, 3] < List.indexOf b [(1:ℚ), 1, 2, 2, 3]) :=
  moda_multiples_orden [(1:ℚ), 1, 2, 2, 3] (by decide) (by decide) (by decide)

/-- Witness for the median formula on the dataset `[3, 1, 2]` with sorted
rearrangement `[1, 2, 3]`. -/
theorem mediana_especificacion_testigo :
    calcular_mediana [(3:ℚ), 1, 2] =
      if [(3:ℚ), 1, 2].length % 2 = 0 then
        some (([(1:ℚ), 2, 3].getD ([(3:ℚ), 1, 2].length / 2 - 1) 0
          + [(1:ℚ), 2, 3].getD ([(3:ℚ), 1, 2].length / 2) 0) / 2)
      else some ([(1:ℚ), 2, 3].getD ([(3:ℚ), 1, 2].length / 2) 0) :=
  mediana_especificacion [(3:ℚ), 1, 2] [(1:ℚ), 2, 3] (by decide) (by decide) (by decide)

/-- Witness for the population-variance formula on `[1, 3]` with mean 2. -/
theorem varianza_poblacional_testigo :
    ∃ v, calcular_varianza [(1:ℚ), 3] 2 = some v ∧
      v = ([(1:ℚ), 3].map (fun x => (x - 2) ^ 2)).sum / (([(1:ℚ), 3].length : ℚ)) ∧
      v * (([(1:ℚ), 3].length : ℚ)) = ([(1:ℚ), 3].map (fun x => (x - 2) ^ 2)).sum :=
  varianza_poblacional [(1:ℚ), 3] 2 (by decide)

/-- Witness for the variance invariants on `[1, 2]`, whose mean is `3/2`
and whose variance is `1/4`. -/
theorem varianza_invariantes_testigo :
    (0 : ℚ) ≤ 1/4 ∧ ((1/4 : ℚ) = 0 ↔ ∀ x ∈ [(1:ℚ), 2], ∀ y ∈ [(1:ℚ), 2], x = y) ∧
      calcular_desviacion_estandar ((1/4 : ℚ) : ℝ) = Real.sqrt ((1/4 : ℚ) : ℝ) :=
  varianza_invariantes [(1:ℚ), 2] (3/2) (1/4) (by decide)
    (by norm_num [calcular_media]) (by norm_num [calcular_varianza])

/-- Witness for the mean formula on `[2, 4]`. -/
theorem media_especificacion_testigo :
    ∃ m, calcular_media [(2:ℚ), 4] = some m ∧
      m = [(2:ℚ), 4].sum / (([(2:ℚ), 4].length : ℚ)) ∧
      m * (([(2:ℚ), 4].length : ℚ)) = [(2:ℚ), 4].sum :=
  media_especificacion [(2:ℚ), 4] (by decide)

/-- Witness for median permutation invariance on `[1, 2]` and `[2, 1]`. -/
theorem mediana_permutacion_testigo :
    calcular_mediana [(1:ℚ), 2] = calcular_mediana [(2:ℚ), 1] :=
  mediana_permutacion [(1:ℚ), 2] [(2:ℚ), 1] (by decide) (by decide)

/-- Witness for totality of all five statistics on the singleton `[5]`. -/
theorem operaciones_totales_testigo :
    (∃ m, calcular_media [(5:ℚ)] = some m) ∧
    (∃ md, calcular_mediana [(5:ℚ)] = some md) ∧
    (∃ mo, calcular_moda [(5:ℚ)] = some mo) ∧
    (∀ media : ℚ, ∃ v, calcular_varianza [(5:ℚ)] media = some v) ∧
    (∀ w : ℝ, ∃ d, calcular_desviacion_estandar w = d) :=
  operaciones_totales [(5:ℚ)] (by decide)

/-! ### Claim theorems for the file reader -/

/-- **C9**: for every input file, `leer_archivo` either raises an
`ArchivoError` or returns a non-empty list of numbers; it never returns an
empty list, so every dataset it produces satisfies the engine's
non-emptiness precondition. -/
theorem leer_archivo_no_vacio (archivo : Archivo) :
    (∃ e, leer_archivo archivo = Except.error e) ∨
    (∃ ns, leer_archivo archivo = Except.ok ns ∧ ns ≠ []) := by
  cases archivo with
  | noEncontrado => exact Or.inl ⟨_, rfl⟩
  | errorLectura => exact Or.inl ⟨_, rfl⟩
  | contenido lineas =>
    by_cases h : lineas.filterMap (fun linea => pyFloat linea) = []
    · exact Or.inl ⟨"No se encontraron numeros validos en el archivo",
        by simp [leer_archivo, h]⟩
    · exact Or.inr ⟨_, by simp only [leer_archivo, if_neg h], h⟩

/-- **C10**: some input file makes `leer_archivo` return a list containing
a non-finite value: it accepts any token that parses as a Python float,
including infinities and NaN, so the engine can receive non-finite values
despite the boundary contract requiring finite reals.  The file with lines
`inf` and `nan` is such a file. -/
theorem leer_archivo_acepta_no_finitos :
    ∃ a ns, leer_archivo a = Except.ok ns ∧ ns ≠ [] ∧
      ∃ v ∈ ns, v.esFinito = false :=
  ⟨Archivo.contenido ["inf", "nan"], [PyVal.inf, PyVal.nan], rfl,
    by simp, PyVal.inf, by simp, rfl⟩

/-- Witness instantiating the reader dichotomy at a concrete file whose
single line holds the number 2. -/
theorem leer_archivo_no_vacio_testigo :
    (∃ e, leer_archivo (Archivo.contenido ["2"]) = Except.error e) ∨
    (∃ ns, leer_archivo (Archivo.contenido ["2"]) = Except.ok ns ∧ ns ≠ []) :=
  leer_archivo_no_vacio (Archivo.contenido ["2"])

end ComputeStatistics
